import Mathlib

/-!
Shallow embedding of the STM data-structure library (persistent list,
FIFO queue, bounded queue, semaphore) and proofs of its specification
claims.

Each transactional operation of the source is embedded as a function from
the structure's state to `StmResult`: either a result value together with
the updated state, or a retry signal.  A retry suspends the whole enclosing
transaction, so no buffered write of a retrying call is ever committed; a
committed run of operations is therefore modelled by adopting the new state
on `ok` and keeping the old state on `retry`.
-/

namespace STMD

/-- Result of a transactional action over state type σ: a value with the
updated (transaction-local) state, or the retry signal that suspends the
enclosing transaction, discarding its buffered writes. -/
inductive StmResult (σ : Type) (α : Type) where
  | ok : α → σ → StmResult σ α
  | retry : StmResult σ α
deriving DecidableEq

/-- unwrap_or_retry from src/src/lib.rs: unwrap an Option or retry on None. -/
def unwrap_or_retry (o : Option α) (s : σ) : StmResult σ α :=
  match o with
  | some x => .ok x s
  | none => .retry

/-- guard from src/src/lib.rs: succeed exactly when the condition holds,
retry otherwise. -/
def guard (cond : Bool) (s : σ) : StmResult σ Unit :=
  if cond then .ok () s else .retry

namespace ArcList

/-- The while-let loop inside Prim::reverse (src/src/arclist.rs): the
accumulator new_list collects the elements of the remaining list ls. -/
def reverseLoop : List α → List α → List α
  | new_list, [] => new_list
  | new_list, x :: ls => reverseLoop (x :: new_list) ls

/-- Prim::reverse from src/src/arclist.rs: iterative reversal starting from
the empty accumulator. -/
def reverse (l : List α) : List α := reverseLoop [] l

/-- ArcList::is_empty from src/src/arclist.rs. -/
def is_empty : List α → Bool
  | [] => true
  | _ :: _ => false

theorem reverseLoop_eq (l : List α) : ∀ acc, reverseLoop acc l = List.reverse l ++ acc := by
  induction l with
  | nil => intro acc; rfl
  | cons x ls ih => intro acc; simp [reverseLoop, ih]

theorem reverse_eq (l : List α) : reverse l = List.reverse l := by
  simp [reverse, reverseLoop_eq]

end ArcList

namespace Prim

/-- Prim::destroy from src/src/arclist.rs, the iterative teardown loop. A
chain is the sequence of Elem nodes of the list, each annotated with whether
the Arc to its tail is uniquely owned at teardown time (that is, whether
Arc::try_unwrap would succeed on it); the chain ends at End.  `destroyGo`
is the while-let loop: `freed` counts the nodes consumed so far; each
iteration consumes the current head node, then continues into the tail if
its Arc is unique, and returns otherwise, leaving the remainder alive. -/
def destroyGo (freed : Nat) : List (α × Bool) → Nat
  | [] => freed
  | (_, u) :: rest => if u then destroyGo (freed + 1) rest else freed + 1

/-- Prim::destroy: run the teardown loop with no node consumed yet; the
result is the number of nodes of the chain that get reclaimed. -/
def destroy (l : List (α × Bool)) : Nat := destroyGo 0 l

theorem destroyGo_shift (l : List (α × Bool)) :
    ∀ f, destroyGo f l = f + destroyGo 0 l := by
  induction l with
  | nil => intro f; simp [destroyGo]
  | cons n rest ih =>
    intro f
    cases n with
    | mk v u =>
      cases u with
      | false => simp [destroyGo]
      | true =>
        simp only [destroyGo, if_pos]
        rw [ih (f + 1), ih 1]
        omega

theorem destroy_formula (l : List (α × Bool)) :
    destroy l = min l.length ((l.takeWhile fun p => p.2).length + 1) := by
  induction l with
  | nil => simp [destroy, destroyGo]
  | cons n rest ih =>
    cases n with
    | mk v u =>
      cases u with
      | false => simp [destroy, destroyGo, List.takeWhile]
      | true =>
        simp only [destroy, destroyGo, if_pos]
        rw [destroyGo_shift]
        simp only [destroy] at ih
        rw [ih]
        simp [List.takeWhile, List.length_cons]
        omega

end Prim

/-- The state of Queue (src/src/queue.rs): the contents of the two TVars,
`read` (popped from the front) and `write` (pushed onto the front). -/
structure QueueState (α : Type) where
  read : List α
  write : List α
deriving DecidableEq

namespace Queue

/-- Queue::new: both lists empty. -/
def new : QueueState α := ⟨[], []⟩

/-- The logical content of the queue in pop order: `read` followed by the
reverse of `write`. -/
def toList (s : QueueState α) : List α := s.read ++ s.write.reverse

/-- Queue::push from src/src/queue.rs: prepend onto the write list. -/
def push (value : α) (s : QueueState α) : StmResult (QueueState α) Unit :=
  .ok () { s with write := value :: s.write }

/-- Queue::push_front from src/src/queue.rs: prepend onto the read list. -/
def push_front (value : α) (s : QueueState α) : StmResult (QueueState α) Unit :=
  .ok () { s with read := value :: s.read }

/-- Queue::try_pop from src/src/queue.rs. -/
def try_pop (s : QueueState α) : StmResult (QueueState α) (Option α) :=
  match s.read with
  | x :: xs => .ok (some x) { s with read := xs }
  | [] =>
    let write_list := s.write
    let s1 : QueueState α := { s with write := [] }
    match ArcList.reverse write_list with
    | [] => .ok none s1
    | x :: xs => .ok (some x) { s1 with read := xs }

/-- Queue::pop from src/src/queue.rs: try_pop, then unwrap_or_retry. -/
def pop (s : QueueState α) : StmResult (QueueState α) α :=
  match try_pop s with
  | .ok v s1 => unwrap_or_retry v s1
  | .retry => .retry

/-- Queue::try_peek from src/src/queue.rs: try_pop, and when a value came
out push it back with push_front. -/
def try_peek (s : QueueState α) : StmResult (QueueState α) (Option α) :=
  match try_pop s with
  | .ok v s1 =>
    match v with
    | some e =>
      match push_front e s1 with
      | .ok _ s2 => .ok v s2
      | .retry => .retry
    | none => .ok v s1
  | .retry => .retry

/-- Queue::peek from src/src/queue.rs: pop, then push_front the value back. -/
def peek (s : QueueState α) : StmResult (QueueState α) α :=
  match pop s with
  | .ok v s1 =>
    match push_front v s1 with
    | .ok _ s2 => .ok v s2
    | .retry => .retry
  | .retry => .retry

/-- Queue::is_empty from src/src/queue.rs, translated exactly as written:
the disjunction of the two emptiness tests. -/
def is_empty (s : QueueState α) : StmResult (QueueState α) Bool :=
  .ok (ArcList.is_empty s.read || ArcList.is_empty s.write) s

theorem try_pop_spec (s : QueueState α) :
    ∃ s1, try_pop s = .ok (toList s).head? s1 ∧ toList s1 = (toList s).tail := by
  cases hr : s.read with
  | cons x xs =>
    refine ⟨{ s with read := xs }, ?_, ?_⟩
    · simp [try_pop, hr, toList]
    · simp [toList, hr]
  | nil =>
    cases hw : s.write.reverse with
    | nil =>
      refine ⟨{ s with write := [] }, ?_, ?_⟩
      · simp [try_pop, hr, ArcList.reverse_eq, hw, toList]
      · simp [toList, hr, hw]
    | cons x xs =>
      refine ⟨⟨xs, []⟩, ?_, ?_⟩
      · simp [try_pop, hr, ArcList.reverse_eq, hw, toList]
      · simp [toList, hr, hw]

theorem pop_retry_iff (s : QueueState α) : pop s = .retry ↔ toList s = [] := by
  obtain ⟨s1, h1, h2⟩ := try_pop_spec s
  cases ht : toList s with
  | nil => simp [pop, h1, ht, unwrap_or_retry]
  | cons x rest => simp [pop, h1, ht, unwrap_or_retry]

theorem pop_ok_of_head (s : QueueState α) (x : α) (h : (toList s).head? = some x) :
    ∃ s1, pop s = .ok x s1 ∧ toList s1 = (toList s).tail := by
  obtain ⟨s1, h1, h2⟩ := try_pop_spec s
  exact ⟨s1, by simp [pop, h1, h, unwrap_or_retry], h2⟩

theorem push_front_toList (v : α) (s : QueueState α) :
    ∃ s1, push_front v s = .ok () s1 ∧ toList s1 = v :: toList s :=
  ⟨{ s with read := v :: s.read }, rfl, by simp [toList]⟩

theorem try_peek_spec (s : QueueState α) :
    ∃ s1, try_peek s = .ok (toList s).head? s1 ∧ toList s1 = toList s := by
  obtain ⟨s1, h1, h2⟩ := try_pop_spec s
  cases ht : toList s with
  | nil =>
    refine ⟨s1, ?_, ?_⟩
    · simp [try_peek, h1, ht]
    · simp [h2, ht]
  | cons x rest =>
    obtain ⟨s2, hpf, hpf2⟩ := push_front_toList x s1
    refine ⟨s2, ?_, ?_⟩
    · simp [try_peek, h1, ht, hpf]
    · simp [hpf2, h2, ht]

theorem peek_retry_iff (s : QueueState α) : peek s = .retry ↔ toList s = [] := by
  cases ht : toList s with
  | nil =>
    have hp : pop s = .retry := (pop_retry_iff s).2 ht
    simp [peek, hp]
  | cons x rest =>
    obtain ⟨s1, h1, h2⟩ := pop_ok_of_head s x (by simp [ht])
    obtain ⟨s2, hpf, _⟩ := push_front_toList x s1
    simp [peek, h1, hpf]

theorem peek_ok_of_head (s : QueueState α) (x : α) (h : (toList s).head? = some x) :
    ∃ s1, peek s = .ok x s1 ∧ toList s1 = toList s := by
  obtain ⟨s1, h1, h2⟩ := pop_ok_of_head s x h
  obtain ⟨s2, hpf, hpf2⟩ := push_front_toList x s1
  refine ⟨s2, by simp [peek, h1, hpf], ?_⟩
  rw [hpf2, h2]
  cases ht : toList s with
  | nil => rw [ht] at h; simp at h
  | cons y rest => rw [ht] at h; simp at h; simp [h]

end Queue

/-- The state of BoundedQueue (src/src/bounded_queue.rs): the inner Queue's
state and the contents of the TVar cap, the number of elements that may
still fit. -/
structure BQState (α : Type) where
  queue : QueueState α
  cap : Nat
deriving DecidableEq

namespace BoundedQueue

/-- BoundedQueue::new: an empty inner queue and cap set to the capacity. -/
def new (capacity : Nat) : BQState α := ⟨Queue.new, capacity⟩

/-- BoundedQueue::push from src/src/bounded_queue.rs: read cap, guard that
it is positive (retry otherwise), write cap - 1, delegate to Queue::push. -/
def push (val : α) (s : BQState α) : StmResult (BQState α) Unit :=
  let cap := s.cap
  match guard (decide (cap > 0)) s with
  | .retry => .retry
  | .ok _ s1 =>
    let s2 : BQState α := { s1 with cap := cap - 1 }
    match Queue.push val s2.queue with
    | .ok u q1 => .ok u { s2 with queue := q1 }
    | .retry => .retry

/-- BoundedQueue::push_front from src/src/bounded_queue.rs: same capacity
bookkeeping as push, delegating to Queue::push_front. -/
def push_front (value : α) (s : BQState α) : StmResult (BQState α) Unit :=
  let cap := s.cap
  match guard (decide (cap > 0)) s with
  | .retry => .retry
  | .ok _ s1 =>
    let s2 : BQState α := { s1 with cap := cap - 1 }
    match Queue.push_front value s2.queue with
    | .ok u q1 => .ok u { s2 with queue := q1 }
    | .retry => .retry

/-- BoundedQueue::try_peek: delegate to Queue::try_peek. -/
def try_peek (s : BQState α) : StmResult (BQState α) (Option α) :=
  match Queue.try_peek s.queue with
  | .ok v q1 => .ok v { s with queue := q1 }
  | .retry => .retry

/-- BoundedQueue::peek: delegate to Queue::peek. -/
def peek (s : BQState α) : StmResult (BQState α) α :=
  match Queue.peek s.queue with
  | .ok v q1 => .ok v { s with queue := q1 }
  | .retry => .retry

/-- BoundedQueue::try_pop from src/src/bounded_queue.rs: inner try_pop, and
only when it produced a value, increment cap. -/
def try_pop (s : BQState α) : StmResult (BQState α) (Option α) :=
  match Queue.try_pop s.queue with
  | .ok v q1 =>
    let s1 : BQState α := { s with queue := q1 }
    match v with
    | some _ => .ok v { s1 with cap := s1.cap + 1 }
    | none => .ok v s1
  | .retry => .retry

/-- BoundedQueue::pop from src/src/bounded_queue.rs: increment cap, then
delegate to the inner Queue::pop (whose retry aborts, discarding the
increment). -/
def pop (s : BQState α) : StmResult (BQState α) α :=
  let s1 : BQState α := { s with cap := s.cap + 1 }
  match Queue.pop s1.queue with
  | .ok x q1 => .ok x { s1 with queue := q1 }
  | .retry => .retry

/-- BoundedQueue::is_empty: delegate to Queue::is_empty. -/
def is_empty (s : BQState α) : StmResult (BQState α) Bool :=
  match Queue.is_empty s.queue with
  | .ok b q1 => .ok b { s with queue := q1 }
  | .retry => .retry

/-- BoundedQueue::is_full: cap equal to zero. -/
def is_full (s : BQState α) : StmResult (BQState α) Bool :=
  .ok (decide (s.cap = 0)) s

end BoundedQueue

/-- 2 to the 32nd: the modulus of Rust's u32 arithmetic. -/
def u32Mod : Nat := 4294967296

/-- The state of Semaphore (src/src/semaphore.rs): the contents of the TVar
num, a u32 counter (represented as a Nat below the u32 modulus). -/
structure SemState where
  num : Nat
deriving DecidableEq

namespace Semaphore

/-- Semaphore::new with n initial tokens. -/
def new (n : Nat) : SemState := ⟨n % u32Mod⟩

/-- Semaphore::wait from src/src/semaphore.rs: read the counter, retry when
it is zero, otherwise write the counter minus one. -/
def wait (s : SemState) : StmResult SemState Unit :=
  let n := s.num
  if n == 0 then .retry
  else .ok () ⟨n - 1⟩

/-- Semaphore::signal from src/src/semaphore.rs: modify the counter by
adding one; u32 arithmetic, so the sum wraps at the u32 modulus. -/
def signal (s : SemState) : StmResult SemState Unit :=
  .ok () ⟨(s.num + 1) % u32Mod⟩

end Semaphore

/-- An operation of a committed run against a Queue. -/
inductive QOp (α : Type) where
  | push : α → QOp α
  | pop : QOp α
  | try_pop : QOp α

/-- Execute a sequence of Queue operations, threading the committed state:
an operation that retries commits nothing (the state is kept as it was).
Returns (values pushed in order, values popped in order, final state).
Grouping consecutive operations into one transaction or many changes
nothing here, since a committed transaction is just the sequential
composition of its operations on the shared state. -/
def runQ : List (QOp α) → QueueState α → List α × List α × QueueState α
  | [], s => ([], [], s)
  | QOp.push v :: ops, s =>
    match Queue.push v s with
    | .ok _ s1 =>
      let r := runQ ops s1
      (v :: r.1, r.2)
    | .retry => runQ ops s
  | QOp.pop :: ops, s =>
    match Queue.pop s with
    | .ok x s1 =>
      let r := runQ ops s1
      (r.1, x :: r.2.1, r.2.2)
    | .retry => runQ ops s
  | QOp.try_pop :: ops, s =>
    match Queue.try_pop s with
    | .ok (some x) s1 =>
      let r := runQ ops s1
      (r.1, x :: r.2.1, r.2.2)
    | .ok none s1 => runQ ops s1
    | .retry => runQ ops s

theorem runQ_fifo (ops : List (QOp α)) :
    ∀ s : QueueState α,
      (runQ ops s).2.1 ++ Queue.toList (runQ ops s).2.2 =
        Queue.toList s ++ (runQ ops s).1 := by
  induction ops with
  | nil => intro s; simp [runQ]
  | cons op ops ih =>
    intro s
    cases op with
    | push v =>
      have hp : Queue.push v s = .ok () { s with write := v :: s.write } := rfl
      have ht : Queue.toList { s with write := v :: s.write } = Queue.toList s ++ [v] := by
        simp [Queue.toList]
      simp only [runQ, hp, ih, ht]
      simp
    | pop =>
      obtain ⟨s1, h1, h2⟩ := Queue.try_pop_spec s
      cases ht : Queue.toList s with
      | nil =>
        have hr : Queue.pop s = .retry := (Queue.pop_retry_iff s).2 ht
        simp [runQ, hr, ih, ht]
      | cons x rest =>
        obtain ⟨s1, h1, h2⟩ := Queue.pop_ok_of_head s x (by simp [ht])
        simp [runQ, h1, ih, h2, ht]
    | try_pop =>
      obtain ⟨s1, h1, h2⟩ := Queue.try_pop_spec s
      cases ht : Queue.toList s with
      | nil =>
        rw [ht] at h1 h2
        simp only [runQ, h1, List.head?_nil]
        simp [ih, h2, ht]
      | cons x rest =>
        rw [ht] at h1 h2
        simp only [runQ, h1, List.head?_cons]
        simp [ih, h2, ht]

/-- An operation of a committed run against a BoundedQueue. -/
inductive BQOp (α : Type) where
  | push : α → BQOp α
  | push_front : α → BQOp α
  | pop : BQOp α
  | try_pop : BQOp α
  | peek : BQOp α
  | try_peek : BQOp α

/-- The committed state after one BoundedQueue operation: the new state
when the transaction completes, the old state when it retries (a retry
suspends the transaction, whose buffered writes are never committed). -/
def commitBQ (op : BQOp α) (s : BQState α) : BQState α :=
  match op with
  | .push v =>
    match BoundedQueue.push v s with
    | .ok _ s1 => s1
    | .retry => s
  | .push_front v =>
    match BoundedQueue.push_front v s with
    | .ok _ s1 => s1
    | .retry => s
  | .pop =>
    match BoundedQueue.pop s with
    | .ok _ s1 => s1
    | .retry => s
  | .try_pop =>
    match BoundedQueue.try_pop s with
    | .ok _ s1 => s1
    | .retry => s
  | .peek =>
    match BoundedQueue.peek s with
    | .ok _ s1 => s1
    | .retry => s
  | .try_peek =>
    match BoundedQueue.try_peek s with
    | .ok _ s1 => s1
    | .retry => s

/-- The committed state after a sequence of BoundedQueue operations. -/
def runBQ (ops : List (BQOp α)) (s : BQState α) : BQState α :=
  ops.foldl (fun t op => commitBQ op t) s

namespace BoundedQueue

theorem push_eq (v : α) (s : BQState α) :
    push v s =
      if s.cap = 0 then .retry
      else .ok () ⟨⟨s.queue.read, v :: s.queue.write⟩, s.cap - 1⟩ := by
  rcases Nat.eq_zero_or_pos s.cap with h | h
  · simp [push, guard, h]
  · simp [push, guard, h, Nat.pos_iff_ne_zero.mp h, Queue.push]

theorem push_front_eq (v : α) (s : BQState α) :
    push_front v s =
      if s.cap = 0 then .retry
      else .ok () ⟨⟨v :: s.queue.read, s.queue.write⟩, s.cap - 1⟩ := by
  rcases Nat.eq_zero_or_pos s.cap with h | h
  · simp [push_front, guard, h]
  · simp [push_front, guard, h, Nat.pos_iff_ne_zero.mp h, Queue.push_front]

theorem bq_pop_retry_iff (s : BQState α) :
    pop s = .retry ↔ Queue.toList s.queue = [] := by
  cases ht : Queue.toList s.queue with
  | nil =>
    have hq : Queue.pop s.queue = .retry := (Queue.pop_retry_iff s.queue).2 ht
    simp [pop, hq]
  | cons x rest =>
    obtain ⟨q1, h1, h2⟩ := Queue.pop_ok_of_head s.queue x (by simp [ht])
    simp [pop, h1]

theorem bq_pop_ok_of_head (s : BQState α) (x : α)
    (h : (Queue.toList s.queue).head? = some x) :
    ∃ s1, pop s = .ok x s1 ∧ s1.cap = s.cap + 1 ∧
      Queue.toList s1.queue = (Queue.toList s.queue).tail := by
  obtain ⟨q1, h1, h2⟩ := Queue.pop_ok_of_head s.queue x h
  exact ⟨⟨q1, s.cap + 1⟩, by simp [pop, h1], rfl, h2⟩

theorem bq_try_pop_spec (s : BQState α) :
    ∃ s1, try_pop s = .ok (Queue.toList s.queue).head? s1 ∧
      s1.cap = (if (Queue.toList s.queue).isEmpty then s.cap else s.cap + 1) ∧
      Queue.toList s1.queue = (Queue.toList s.queue).tail := by
  obtain ⟨q1, h1, h2⟩ := Queue.try_pop_spec s.queue
  cases ht : Queue.toList s.queue with
  | nil =>
    rw [ht] at h1 h2
    exact ⟨⟨q1, s.cap⟩, by simp [try_pop, h1], by simp, by simp [h2]⟩
  | cons x rest =>
    rw [ht] at h1 h2
    exact ⟨⟨q1, s.cap + 1⟩, by simp [try_pop, h1], by simp, by simp [h2]⟩

theorem bq_try_peek_spec (s : BQState α) :
    ∃ s1, try_peek s = .ok (Queue.toList s.queue).head? s1 ∧
      s1.cap = s.cap ∧ Queue.toList s1.queue = Queue.toList s.queue := by
  obtain ⟨q1, h1, h2⟩ := Queue.try_peek_spec s.queue
  exact ⟨⟨q1, s.cap⟩, by simp [try_peek, h1], rfl, h2⟩

theorem bq_peek_retry_iff (s : BQState α) :
    peek s = .retry ↔ Queue.toList s.queue = [] := by
  cases ht : Queue.toList s.queue with
  | nil =>
    have hq : Queue.peek s.queue = .retry := (Queue.peek_retry_iff s.queue).2 ht
    simp [peek, hq]
  | cons x rest =>
    obtain ⟨q1, h1, h2⟩ := Queue.peek_ok_of_head s.queue x (by simp [ht])
    simp [peek, h1]

theorem bq_peek_ok_of_head (s : BQState α) (x : α)
    (h : (Queue.toList s.queue).head? = some x) :
    ∃ s1, peek s = .ok x s1 ∧ s1.cap = s.cap ∧
      Queue.toList s1.queue = Queue.toList s.queue := by
  obtain ⟨q1, h1, h2⟩ := Queue.peek_ok_of_head s.queue x h
  exact ⟨⟨q1, s.cap⟩, by simp [peek, h1], rfl, h2⟩

end BoundedQueue

theorem commitBQ_inv (C : Nat) (op : BQOp α) (s : BQState α)
    (h : s.cap + (Queue.toList s.queue).length = C) :
    (commitBQ op s).cap + (Queue.toList (commitBQ op s).queue).length = C := by
  cases op with
  | push v =>
    rw [commitBQ, BoundedQueue.push_eq]
    rcases Nat.eq_zero_or_pos s.cap with hc | hc
    · simp [hc]
      omega
    · have : ¬ s.cap = 0 := Nat.pos_iff_ne_zero.mp hc
      simp only [this, if_neg, ite_false]
      simp [Queue.toList] at h ⊢
      omega
  | push_front v =>
    rw [commitBQ, BoundedQueue.push_front_eq]
    rcases Nat.eq_zero_or_pos s.cap with hc | hc
    · simp [hc]
      omega
    · have : ¬ s.cap = 0 := Nat.pos_iff_ne_zero.mp hc
      simp only [this, if_neg, ite_false]
      simp [Queue.toList] at h ⊢
      omega
  | pop =>
    cases ht : Queue.toList s.queue with
    | nil =>
      have hr : BoundedQueue.pop s = .retry := (BoundedQueue.bq_pop_retry_iff s).2 ht
      simp [commitBQ, hr, h]
    | cons x rest =>
      obtain ⟨s1, h1, h2, h3⟩ := BoundedQueue.bq_pop_ok_of_head s x (by simp [ht])
      rw [ht] at h3
      simp only [commitBQ, h1]
      rw [h2, h3]
      rw [ht] at h
      simp at h ⊢
      omega
  | try_pop =>
    obtain ⟨s1, h1, h2, h3⟩ := BoundedQueue.bq_try_pop_spec s
    simp only [commitBQ, h1]
    cases ht : Queue.toList s.queue with
    | nil =>
      rw [ht] at h2 h3
      simp at h2 h3
      rw [ht] at h
      simp [h2, h3, h] at h ⊢
      omega
    | cons x rest =>
      rw [ht] at h2 h3 h
      simp at h2 h3
      rw [h2, h3]
      simp at h ⊢
      omega
  | peek =>
    cases ht : Queue.toList s.queue with
    | nil =>
      have hr : BoundedQueue.peek s = .retry := (BoundedQueue.bq_peek_retry_iff s).2 ht
      simp [commitBQ, hr, h]
    | cons x rest =>
      obtain ⟨s1, h1, h2, h3⟩ := BoundedQueue.bq_peek_ok_of_head s x (by simp [ht])
      simp only [commitBQ, h1]
      rw [h2, h3]
      exact h
  | try_peek =>
    obtain ⟨s1, h1, h2, h3⟩ := BoundedQueue.bq_try_peek_spec s
    simp only [commitBQ, h1]
    rw [h2, h3]
    exact h

theorem runBQ_inv (C : Nat) (ops : List (BQOp α)) :
    ∀ s : BQState α, s.cap + (Queue.toList s.queue).length = C →
      (runBQ ops s).cap + (Queue.toList (runBQ ops s).queue).length = C := by
  induction ops with
  | nil => intro s h; simpa [runBQ] using h
  | cons op ops ih =>
    intro s h
    have h1 := commitBQ_inv C op s h
    simpa [runBQ, List.foldl] using ih (commitBQ op s) h1

theorem commitBQ_zero_fix (op : BQOp α) :
    commitBQ op (BoundedQueue.new 0 : BQState α) = BoundedQueue.new 0 := by
  cases op <;> rfl

theorem runBQ_zero_fix (ops : List (BQOp α)) :
    runBQ ops (BoundedQueue.new 0 : BQState α) = BoundedQueue.new 0 := by
  induction ops with
  | nil => rfl
  | cons op ops ih => simpa [runBQ, List.foldl, commitBQ_zero_fix] using ih

theorem takeWhile_shared_le (x : α) (post : List (α × Bool)) :
    ∀ pre : List (α × Bool),
      ((pre ++ (x, false) :: post).takeWhile fun p => p.2).length ≤ pre.length := by
  intro pre
  induction pre with
  | nil => simp [List.takeWhile_cons]
  | cons a pre ih =>
    cases a with
    | mk v u =>
      cases u with
      | false => simp [List.takeWhile_cons]
      | true =>
        simp only [List.cons_append, List.takeWhile_cons]
        simp [List.length_cons]
        omega

theorem destroy_replicate_true (n : Nat) :
    Prim.destroy (List.replicate n ((0 : Nat), true)) = n := by
  rw [Prim.destroy_formula]
  have htw : (List.replicate n ((0 : Nat), true)).takeWhile (fun p => p.2) =
      List.replicate n ((0 : Nat), true) := by
    induction n with
    | zero => simp
    | succ k ih => simp [List.replicate_succ, List.takeWhile_cons, ih]
  rw [htw]
  simp

/-- Claim C1: for every sequence of Queue pushes and pops, in any batching
across one or more transactions, values are popped in exactly the order they
were pushed (FIFO).  General form: over any committed run of operations from
the empty queue, the popped values followed by the remaining logical content
equal the pushed values in push order, so pops always deliver the pushed
values in order.  Concrete form: pushing 1, 2, 3 and popping three times
yields (1, 2, 3); batching is irrelevant because a committed transaction is
the sequential composition of its operations on the shared cells, which is
exactly how runQ threads the state. -/
theorem claim_C1_queue_fifo :
    (∀ (α : Type) (ops : List (QOp α)),
        (runQ ops Queue.new).2.1 ++ Queue.toList (runQ ops Queue.new).2.2 =
          (runQ ops Queue.new).1) ∧
    runQ [QOp.push 1, QOp.push 2, QOp.push 3, QOp.pop, QOp.pop, QOp.pop]
        (Queue.new : QueueState Nat) = ([1, 2, 3], [1, 2, 3], ⟨[], []⟩) := by
  constructor
  · intro α ops
    have h := runQ_fifo ops (Queue.new : QueueState α)
    simpa [Queue.new, Queue.toList] using h
  · decide

/-- Claim C2 fails on the code: Queue::is_empty uses a disjunction of the
two emptiness tests, so a queue holding 42 only in its write (back) cell is
reported empty, although its logical content is [42].  The code contradicts
its own doc comment and the spec ("true only when both front and back are
empty"). -/
theorem claim_C2_is_empty_failing :
    Queue.push 42 (Queue.new : QueueState Nat) = .ok () ⟨[], [42]⟩ ∧
    Queue.is_empty (⟨[], [42]⟩ : QueueState Nat) = .ok true ⟨[], [42]⟩ ∧
    Queue.toList (⟨[], [42]⟩ : QueueState Nat) = [42] :=
  ⟨rfl, rfl, rfl⟩

/-- Claim C3: for every BoundedQueue created by new(capacity), after every
committed run of operations (push, push_front, pop, try_pop, peek,
try_peek), the counter satisfies remaining + (number of elements currently
in the inner queue) = capacity, hence also remaining ≤ capacity. -/
theorem claim_C3_capacity_invariant :
    ∀ (α : Type) (capacity : Nat) (ops : List (BQOp α)),
      (runBQ ops (BoundedQueue.new capacity)).cap +
          (Queue.toList (runBQ ops (BoundedQueue.new capacity)).queue).length =
        capacity ∧
      (runBQ ops (BoundedQueue.new capacity)).cap ≤ capacity := by
  intro α capacity ops
  have h0 : (BoundedQueue.new capacity : BQState α).cap +
      (Queue.toList (BoundedQueue.new capacity : BQState α).queue).length = capacity := by
    simp [BoundedQueue.new, Queue.new, Queue.toList]
  have h := runBQ_inv capacity ops (BoundedQueue.new capacity) h0
  exact ⟨h, by omega⟩

/-- Claim C4: Queue::try_pop never signals retry and behaves exactly as
described (front non-empty: return its head, write the remainder back;
front empty: take back, replace it with empty, reverse it, return absent
when that reversal is empty and otherwise its head with the remainder in
front); Queue::pop returns the same value when one exists and signals a
blocking retry exactly when try_pop would return absent. -/
theorem claim_C4_try_pop_pop :
    ∀ (α : Type) (s : QueueState α),
      (∃ s1, Queue.try_pop s = .ok (Queue.toList s).head? s1 ∧
         Queue.toList s1 = (Queue.toList s).tail) ∧
      (Queue.try_pop s =
        match s.read with
        | x :: xs => .ok (some x) { s with read := xs }
        | [] =>
          match s.write.reverse with
          | [] => .ok none { s with write := [] }
          | x :: xs => .ok (some x) ⟨xs, []⟩) ∧
      (Queue.pop s = .retry ↔ Queue.toList s = []) ∧
      (∀ x, (Queue.toList s).head? = some x →
        ∃ s1, Queue.pop s = .ok x s1 ∧ Queue.toList s1 = (Queue.toList s).tail) := by
  intro α s
  refine ⟨Queue.try_pop_spec s, ?_, Queue.pop_retry_iff s, Queue.pop_ok_of_head s⟩
  cases hr : s.read with
  | cons x xs => simp [Queue.try_pop, hr]
  | nil =>
    cases hw : s.write.reverse with
    | nil => simp [Queue.try_pop, hr, ArcList.reverse_eq, hw]
    | cons x xs => simp [Queue.try_pop, hr, ArcList.reverse_eq, hw]

/-- Claim C5: BoundedQueue::push retries exactly when remaining is zero,
with the capacity check before any mutation (the committed state of a
blocked attempt is unchanged); when remaining is positive it decrements
remaining by exactly one and delegates the value to the inner push. -/
theorem claim_C5_bounded_push :
    ∀ (α : Type) (v : α) (s : BQState α),
      BoundedQueue.push v s =
        (if s.cap = 0 then .retry
         else .ok () ⟨⟨s.queue.read, v :: s.queue.write⟩, s.cap - 1⟩) ∧
      commitBQ (BQOp.push v) s =
        (if s.cap = 0 then s
         else ⟨⟨s.queue.read, v :: s.queue.write⟩, s.cap - 1⟩) ∧
      (0 < s.cap →
        BoundedQueue.push v s =
          match Queue.push v s.queue with
          | .ok u q1 => .ok u ⟨q1, s.cap - 1⟩
          | .retry => .retry) := by
  intro α v s
  have hp := BoundedQueue.push_eq v s
  refine ⟨hp, ?_, ?_⟩
  · rw [commitBQ, hp]
    rcases Nat.eq_zero_or_pos s.cap with hc | hc
    · simp [hc]
    · simp [Nat.pos_iff_ne_zero.mp hc]
  · intro hc
    rw [hp, if_neg (Nat.pos_iff_ne_zero.mp hc)]
    simp [Queue.push]

/-- Claim C6: BoundedQueue::pop leaves a net increment of remaining only
when the inner pop actually produced a value (a retry commits nothing), and
BoundedQueue::try_pop adjusts remaining only when a value is actually
removed: committed remaining grows by one exactly when the inner queue was
non-empty, and stays unchanged when no value is produced. -/
theorem claim_C6_pop_cap_adjust :
    ∀ (α : Type) (s : BQState α),
      (∃ s1, BoundedQueue.try_pop s = .ok (Queue.toList s.queue).head? s1 ∧
         s1.cap = (if (Queue.toList s.queue).isEmpty then s.cap else s.cap + 1) ∧
         Queue.toList s1.queue = (Queue.toList s.queue).tail) ∧
      (BoundedQueue.pop s = .retry ↔ Queue.toList s.queue = []) ∧
      (∀ x, (Queue.toList s.queue).head? = some x →
        ∃ s1, BoundedQueue.pop s = .ok x s1 ∧ s1.cap = s.cap + 1) ∧
      (commitBQ BQOp.pop s).cap =
        (if (Queue.toList s.queue).isEmpty then s.cap else s.cap + 1) ∧
      (commitBQ BQOp.try_pop s).cap =
        (if (Queue.toList s.queue).isEmpty then s.cap else s.cap + 1) := by
  intro α s
  refine ⟨BoundedQueue.bq_try_pop_spec s, BoundedQueue.bq_pop_retry_iff s, ?_, ?_, ?_⟩
  · intro x h
    obtain ⟨s1, h1, h2, h3⟩ := BoundedQueue.bq_pop_ok_of_head s x h
    exact ⟨s1, h1, h2⟩
  · cases ht : Queue.toList s.queue with
    | nil =>
      have hr : BoundedQueue.pop s = .retry := (BoundedQueue.bq_pop_retry_iff s).2 ht
      simp [commitBQ, hr]
    | cons x rest =>
      obtain ⟨s1, h1, h2, h3⟩ := BoundedQueue.bq_pop_ok_of_head s x (by simp [ht])
      simp [commitBQ, h1, h2]
  · obtain ⟨s1, h1, h2, h3⟩ := BoundedQueue.bq_try_pop_spec s
    simp [commitBQ, h1, h2]

/-- Claim C7: Queue::peek and Queue::try_peek return the same result as the
corresponding pop variant (the head of the logical content, retrying
exactly when pop would), and leave the logical content of the queue in pop
order unchanged. -/
theorem claim_C7_peek_frame :
    ∀ (α : Type) (s : QueueState α),
      (∃ s1, Queue.try_peek s = .ok (Queue.toList s).head? s1 ∧
         Queue.toList s1 = Queue.toList s) ∧
      (Queue.peek s = .retry ↔ Queue.pop s = .retry) ∧
      (∀ x, (Queue.toList s).head? = some x →
        ∃ s1, Queue.peek s = .ok x s1 ∧ Queue.toList s1 = Queue.toList s) := by
  intro α s
  refine ⟨Queue.try_peek_spec s, ?_, Queue.peek_ok_of_head s⟩
  rw [Queue.peek_retry_iff, Queue.pop_retry_iff]

/-- Claim C8 fails on the code as stated: the counter is a u32, so at the
counter value 4294967295 (reachable by that many signals) one more signal
wraps the counter to 0, not to 4294967295 + 1. -/
theorem claim_C8_counterexample :
    Semaphore.signal ⟨4294967295⟩ = .ok () ⟨0⟩ ∧ (4294967295 + 1 : Nat) ≠ 0 := by
  exact ⟨rfl, by decide⟩

/-- Claim C8, amended: Semaphore::signal increments the counter by exactly
one modulo 2^32, unconditionally and with no upper bound enforced (it never
retries); whenever the incremented value stays below 2^32 the counter after
signal is exactly n + 1. -/
theorem claim_C8_signal_amended :
    ∀ n : Nat,
      Semaphore.signal ⟨n⟩ = .ok () ⟨(n + 1) % u32Mod⟩ ∧
      (n + 1 < u32Mod → Semaphore.signal ⟨n⟩ = .ok () ⟨n + 1⟩) := by
  intro n
  refine ⟨rfl, fun h => ?_⟩
  simp [Semaphore.signal, Nat.mod_eq_of_lt h]

/-- Claim C9: the teardown loop of Prim::destroy (also run by ArcList's
Drop) walks the chain iteratively, reclaims exactly the nodes up to and
including the first one whose tail Arc is still shared, never touches the
remainder (so a suffix still reachable from another list is never freed),
and terminates on every finite chain; in particular a chain of 100000
uniquely owned nodes is reclaimed completely. -/
theorem claim_C9_destroy_teardown :
    (∀ (α : Type) (chain : List (α × Bool)),
        Prim.destroy chain =
          min chain.length ((chain.takeWhile fun p => p.2).length + 1)) ∧
    (∀ (α : Type) (pre post : List (α × Bool)) (x : α),
        Prim.destroy (pre ++ (x, false) :: post) ≤ pre.length + 1) ∧
    Prim.destroy (List.replicate 100000 ((0 : Nat), true)) = 100000 := by
  refine ⟨fun α chain => Prim.destroy_formula chain, ?_, destroy_replicate_true 100000⟩
  intro α pre post x
  rw [Prim.destroy_formula]
  have h := takeWhile_shared_le x post pre
  omega

/-- Claim C10: on a BoundedQueue of capacity 0, every committed run of
operations leaves the state at its initial value (cap 0, empty inner
queue), and at that state push, push_front and pop all signal retry while
try_pop returns absent: no operation can ever insert or return a value. -/
theorem claim_C10_zero_capacity :
    ∀ (α : Type) (ops : List (BQOp α)) (v : α),
      runBQ ops (BoundedQueue.new 0) = (BoundedQueue.new 0 : BQState α) ∧
      BoundedQueue.push v (runBQ ops (BoundedQueue.new 0)) = .retry ∧
      BoundedQueue.push_front v (runBQ ops (BoundedQueue.new 0)) = .retry ∧
      BoundedQueue.pop (runBQ ops (BoundedQueue.new 0)) = .retry ∧
      BoundedQueue.try_pop (runBQ ops (BoundedQueue.new 0)) =
        .ok none (BoundedQueue.new 0) := by
  intro α ops v
  have h := runBQ_zero_fix (α := α) ops
  refine ⟨h, ?_, ?_, ?_, ?_⟩ <;> rw [h] <;> rfl

end STMD
